import Mathlib

/-!
Verification of the essrpc transport core (crate `essrpc`): the error model,
the bincode framed codec, the JSON envelope codec, the code generated by the
`essrpc` attribute macro (client call sequence and `serve_single_call`
dispatch), and the `RPCServer` serve-loop default methods.

Bytes are modelled as natural numbers kept below 256 by construction;
machine-integer truncation (`len as u32`) is explicit `% 2 ^ 32`.
External serialization libraries (bincode / serde_json) are modelled by
codec structures whose single law is the library's documented prefix
round-trip contract for serializable types.
-/

namespace Essrpc

/-- Kinds of `RPCError`, from `essrpc/src/lib.rs` (`enum RPCErrorKind`). -/
inductive RPCErrorKind where
  | SerializationError
  | UnknownMethod
  | TransportError
  | TransportEOF
  | IllegalState
  | Other
deriving DecidableEq, Repr

/-- `RPCError` from `essrpc/src/lib.rs`. The `cause` chain (an opaque
lossy projection of external library errors) is not modelled: no claim
inspects it, only `kind` and the message. -/
structure RPCError where
  kind : RPCErrorKind
  msg : String
deriving DecidableEq, Repr

/-- `RPCError::new` (no cause). -/
def RPCError.new (kind : RPCErrorKind) (msg : String) : RPCError :=
  ⟨kind, msg⟩

/-- `MethodId` from `essrpc/src/lib.rs`: name plus 0-based index (`num: u32`). -/
structure MethodId where
  name : String
  num : Nat

/-- `PartialMethodId` from `essrpc/src/lib.rs`. -/
inductive PartialMethodId where
  | Name (name : String)
  | Num (num : Nat)

/-- Debug rendering of `PartialMethodId`, standing in for the derived
`Debug` formatting used in the generated unknown-method message. -/
def PartialMethodId.debugStr : PartialMethodId → String
  | .Name s => "Name(" ++ s ++ ")"
  | .Num n => "Num(" ++ toString n ++ ")"

/-! ### Little-endian 32-bit encoding (`u32::to_le_bytes` / `from_le_bytes`) -/

/-- The four little-endian bytes of a natural number, as written by
`u32::to_le_bytes` (for `n < 2 ^ 32` this is exact; in general it gives
the low 32 bits). -/
def u32le (n : Nat) : List Nat :=
  [n % 256, n / 2 ^ 8 % 256, n / 2 ^ 16 % 256, n / 2 ^ 24 % 256]

/-- `u32::from_le_bytes` over a 4-byte list. -/
def u32leDecode (b : List Nat) : Nat :=
  b.getD 0 0 + b.getD 1 0 * 2 ^ 8 + b.getD 2 0 * 2 ^ 16 + b.getD 3 0 * 2 ^ 24

theorem u32le_length (n : Nat) : (u32le n).length = 4 := rfl

theorem u32le_mod (n : Nat) : u32le (n % 2 ^ 32) = u32le n := by
  have e0 : n % 2 ^ 32 % 256 = n % 256 :=
    Nat.mod_mod_of_dvd n (by norm_num)
  have e1 : n % 2 ^ 32 / 2 ^ 8 % 256 = n / 2 ^ 8 % 256 := by
    have h8 : (2 : Nat) ^ 32 = 2 ^ 8 * 2 ^ 24 := by norm_num
    rw [h8, Nat.mod_mul_right_div_self]
    exact Nat.mod_mod_of_dvd _ (by norm_num)
  have e2 : n % 2 ^ 32 / 2 ^ 16 % 256 = n / 2 ^ 16 % 256 := by
    have h16 : (2 : Nat) ^ 32 = 2 ^ 16 * 2 ^ 16 := by norm_num
    rw [h16, Nat.mod_mul_right_div_self]
    exact Nat.mod_mod_of_dvd _ (by norm_num)
  have e3 : n % 2 ^ 32 / 2 ^ 24 % 256 = n / 2 ^ 24 % 256 := by
    have h24 : (2 : Nat) ^ 32 = 2 ^ 24 * 2 ^ 8 := by norm_num
    rw [h24, Nat.mod_mul_right_div_self]
    exact Nat.mod_mod_of_dvd _ (by norm_num)
  simp only [u32le]
  norm_num at e0 e1 e2 e3 ⊢
  exact ⟨e1, e2, e3⟩

theorem u32leDecode_u32le (n : Nat) : u32leDecode (u32le n) = n % 2 ^ 32 := by
  simp only [u32le, u32leDecode, List.getD_cons_zero, List.getD_cons_succ]
  omega

/-! ### The bincode framed codec (`essrpc/src/transports/bincode.rs`) -/

/-- The 6 magic bytes `b"ESSRPC"`. -/
def magicBytes : List Nat := [69, 83, 83, 82, 80, 67]

/-- `FrameHeader`: `msg_len: u32`. -/
structure FrameHeader where
  msg_len : Nat
deriving DecidableEq, Repr

/-- `FrameHeader::HEADER_LEN`. -/
def FrameHeader.HEADER_LEN : Nat := 10

/-- `FrameHeader::new(len: usize)`: the cast `len as u32` truncates to the
low 32 bits. -/
def FrameHeader.new (len : Nat) : FrameHeader :=
  ⟨len % 2 ^ 32⟩

/-- `FrameHeader::as_bytes`: magic bytes then the length, little-endian. -/
def FrameHeader.as_bytes (h : FrameHeader) : List Nat :=
  magicBytes ++ u32le h.msg_len

/-- `FrameHeader::from_bytes`: reject the frame unless the first 6 bytes
are the magic tag (with kind `TransportError` and message
`"IO error in transport"`), then decode bytes 6..10 little-endian. -/
def FrameHeader.from_bytes (bytes : List Nat) : Except RPCError FrameHeader :=
  if bytes.take 6 ≠ magicBytes then
    Except.error (RPCError.new RPCErrorKind.TransportError "IO error in transport")
  else
    Except.ok (FrameHeader.new (u32leDecode ((bytes.drop 6).take 4)))

/-- `FrameHeader::len`. -/
def FrameHeader.len (h : FrameHeader) : Nat :=
  h.msg_len

/-- A duplex byte channel as seen by one endpoint: bytes still to be read,
and bytes written so far. -/
structure Chan where
  input : List Nat
  output : List Nat
deriving DecidableEq, Repr

/-- `write_all` on the channel (loopback writes always succeed). -/
def chanWrite (bytes : List Nat) (ch : Chan) : Chan :=
  { ch with output := ch.output ++ bytes }

/-- Modelled from the spec: the crate's `From` conversion from
`std::io::Error` to `RPCError`, used by the `?` operator on the
`read_exact` calls in `bincode.rs`, is not among the provided sources
(only its uses are). Per the spec (§4.4), EOF encountered while reading
maps to `TransportEOF`; the repository's own tests
(`serve_multiple_eof_on_disconnect_bincode`) assert the same kind. -/
def rpcErrorFromIoEof : RPCError :=
  RPCError.new RPCErrorKind.TransportEOF "EOF reading from transport"

/-- `read_exact` into an `n`-byte buffer: fails with `UnexpectedEof`
(converted to `rpcErrorFromIoEof` by `?`) when fewer than `n` bytes
remain before the peer's close. -/
def chanReadExact (n : Nat) (ch : Chan) : Except RPCError (List Nat) × Chan :=
  if ch.input.length < n then
    (Except.error rpcErrorFromIoEof, { ch with input := ch.input.drop n })
  else
    (Except.ok (ch.input.take n), { ch with input := ch.input.drop n })

/-- Error produced by the `deserialize` wrapper in `bincode.rs` when
bincode reports an IO `UnexpectedEof`. -/
def bincodeEofError : RPCError :=
  RPCError.new RPCErrorKind.TransportEOF "EOF during bincode deserialization"

/-- The error classification performed by `deserialize` in `bincode.rs`
(lines 21-40) over the kinds of failure the bincode library can report:
an IO error of kind `UnexpectedEof`, any other IO error, or a
non-IO decode failure. -/
inductive BincodeFailure where
  | ioUnexpectedEof
  | ioOther (msg : String)
  | decodeFailure (msg : String)
deriving DecidableEq

/-- The `map_err` closure of `deserialize` in `bincode.rs`: only the
`Io(UnexpectedEof)` case maps to `TransportEOF`; everything else maps to
`SerializationError` with message `"bincode deserialization failure"`. -/
def bincodeMapDeserializeError : BincodeFailure → RPCError
  | .ioUnexpectedEof => bincodeEofError
  | .ioOther _ =>
      RPCError.new RPCErrorKind.SerializationError "bincode deserialization failure"
  | .decodeFailure _ =>
      RPCError.new RPCErrorKind.SerializationError "bincode deserialization failure"

/-- Streaming bincode deserialization of a `u32` (`self.deserialize()` in
`rx_begin_call`): bincode's fixed-size integer encoding reads exactly 4
bytes; any 4 bytes decode, fewer is an EOF. -/
def bincodeDeserializeU32 (ch : Chan) : Except RPCError Nat × Chan :=
  if ch.input.length < 4 then
    (Except.error bincodeEofError, { ch with input := ch.input.drop 4 })
  else
    (Except.ok (u32leDecode (ch.input.take 4)), { ch with input := ch.input.drop 4 })

/-- A serializable type, as the bincode library guarantees it: a total
encoder, a streaming decoder consuming a prefix of the input, and the
library's round-trip contract (decoding an encoding consumes exactly the
encoding and yields the encoded value back). -/
structure BCodec (α : Type) where
  enc : α → List Nat
  dec : List Nat → Except RPCError (α × List Nat)
  dec_enc : ∀ (a : α) (rest : List Nat), dec (enc a ++ rest) = Except.ok (a, rest)

/-! #### Bincode `ClientTransport` implementation -/

/-- `tx_begin_call`: serialize `method.num` (a `u32`) into a fresh buffer. -/
def bincodeTxBeginCall (method : MethodId) : List Nat :=
  u32le method.num

/-- `tx_add_param`: serialize the value onto the buffer; the parameter
name is ignored (`_name`). -/
def bincodeTxAddParam (enc : α → List Nat) (_name : String) (value : α)
    (state : List Nat) : List Nat :=
  state ++ enc value

/-- `tx_finalize`: write the frame header for the buffered payload, then
the payload (returned here as the byte sequence put on the wire). -/
def bincodeTxFinalize (state : List Nat) : List Nat :=
  (FrameHeader.new state.length).as_bytes ++ state

/-- The full client transmission of one call (`tx_begin_call`, then
`tx_add_param` for each `(name, value)` pair in order, then
`tx_finalize`), as generated by `client_method_tx_send`. -/
def bincodeClientCallBytes (enc : α → List Nat) (method : MethodId)
    (params : List (String × α)) : List Nat :=
  bincodeTxFinalize
    (params.foldl (fun st p => bincodeTxAddParam enc p.1 p.2 st)
      (bincodeTxBeginCall method))

/-- `rx_response`: read the 10-byte header, parse it, read exactly
`header.len()` payload bytes, and deserialize the response from that
buffer (trailing buffer bytes are ignored by a slice deserialize). -/
def bincodeRxResponse (dec : List Nat → Except RPCError (α × List Nat))
    (input : List Nat) : Except RPCError α :=
  if input.length < FrameHeader.HEADER_LEN then
    Except.error rpcErrorFromIoEof
  else
    match FrameHeader.from_bytes (input.take FrameHeader.HEADER_LEN) with
    | Except.error e => Except.error e
    | Except.ok h =>
      if (input.drop FrameHeader.HEADER_LEN).length < h.len then
        Except.error rpcErrorFromIoEof
      else
        match dec ((input.drop FrameHeader.HEADER_LEN).take h.len) with
        | Except.error e => Except.error e
        | Except.ok (v, _) => Except.ok v

/-! #### Bincode `ServerTransport` implementation -/

/-- `rx_begin_call`: read and check the 10-byte header (its decoded
length is discarded), then deserialize the `u32` method index directly
from the channel. -/
def bincodeRxBeginCall (ch : Chan) :
    Except RPCError (PartialMethodId × Unit) × Chan :=
  match chanReadExact FrameHeader.HEADER_LEN ch with
  | (Except.error e, ch) => (Except.error e, ch)
  | (Except.ok header, ch) =>
    match FrameHeader.from_bytes header with
    | Except.error e => (Except.error e, ch)
    | Except.ok _ =>
      match bincodeDeserializeU32 ch with
      | (Except.error e, ch) => (Except.error e, ch)
      | (Except.ok methodId, ch) => (Except.ok (PartialMethodId.Num methodId, ()), ch)

/-- `rx_read_param`: deserialize the next parameter directly from the
channel; the name and the unit reception state are ignored. -/
def bincodeRxReadParamOp (bc : BCodec α) (_name : String) (_rx : Unit)
    (ch : Chan) : Except RPCError α × Unit × Chan :=
  match bc.dec ch.input with
  | Except.error e => (Except.error e, (), ch)
  | Except.ok (v, rest) => (Except.ok v, (), { ch with input := rest })

/-- `tx_response`: serialize the response value into a buffer, then write
its frame header and the buffer. -/
def bincodeTxResponse (enc : α → List Nat) (value : α) (ch : Chan) :
    Except RPCError Unit × Chan :=
  let msg := enc value
  (Except.ok (), chanWrite msg (chanWrite (FrameHeader.new msg.length).as_bytes ch))

/-! ### The JSON envelope codec (`essrpc/src/transports/json.rs`)

The channel is modelled at the granularity the codec relies on: one
complete top-level JSON value per write/read (serde_json's serializer
and its streaming deserializer round-trip one value at a time). -/

/-- A JSON value (`serde_json::value::Value`); objects keep their fields
as an association list with the keys unique, as produced by serde_json. -/
inductive JValue where
  | null
  | bool (b : Bool)
  | num (n : Int)
  | str (s : String)
  | arr (elems : List JValue)
  | obj (fields : List (String × JValue))

/-- Key lookup in an object's field list (first match), as serde_json's
map lookup behaves on a map built from unique keys. -/
def lookupField (fields : List (String × JValue)) (key : String) : Option JValue :=
  match fields with
  | [] => none
  | f :: rest => if f.1 = key then some f.2 else lookupField rest key

/-- `Value::get(key)`: field lookup on objects, `None` on anything else. -/
def JValue.get (v : JValue) (key : String) : Option JValue :=
  match v with
  | .obj fields => lookupField fields key
  | _ => none

/-- `Value::as_str`. -/
def JValue.asStr : JValue → Option String
  | .str s => some s
  | _ => none

/-- `serde_json::Map::insert`: replace the value under an existing key,
otherwise append the new entry. -/
def insertField (fields : List (String × JValue)) (key : String) (v : JValue) :
    List (String × JValue) :=
  match fields with
  | [] => [(key, v)]
  | f :: rest => if f.1 = key then (key, v) :: rest else f :: insertField rest key v

/-- `JTXState`: the method name and the `params` object under construction. -/
structure JTXState where
  method : String
  params : List (String × JValue)

/-- `JRXState` holds the parsed request value; a channel state to thread. -/
structure JChan where
  input : List JValue
  output : List JValue

/-- A serializable type, as serde_json guarantees it: a total encoder to
`JValue`, a decoder, and the library's round-trip contract. -/
structure JCodec (α : Type) where
  toJ : α → JValue
  fromJ : JValue → Except RPCError α
  from_to : ∀ (a : α), fromJ (toJ a) = Except.ok a

/-- Error produced by `read_value_from_json` when serde_json classifies
the failure as `Category::Eof`. -/
def jsonEofError : RPCError :=
  RPCError.new RPCErrorKind.TransportEOF "EOF during json deserialization"

/-! #### JSON `ClientTransport` implementation -/

/-- `begin_call`: record the method name, start with empty `params`. -/
def jsonTxBeginCall (method : MethodId) : JTXState :=
  ⟨method.name, []⟩

/-- `add_param`: insert the serialized value under the parameter's name. -/
def jsonTxAddParam (name : String) (jv : JValue) (state : JTXState) : JTXState :=
  { state with params := insertField state.params name jv }

/-- `value_for_state`: the JSON-RPC-like request envelope. The `id` field
is a freshly generated UUID string, passed in here as a parameter. -/
def value_for_state (state : JTXState) (uuid : String) : JValue :=
  .obj [("jsonrpc", .str "2.0"), ("method", .str state.method),
        ("params", .obj state.params), ("id", .str uuid)]

/-- The full client request value for one call (`tx_begin_call`, then
`tx_add_param` per `(name, value)` pair in order, then the envelope
written by `tx_finalize`). -/
def jsonClientCallValue (toJ : α → JValue) (method : MethodId)
    (params : List (String × α)) (uuid : String) : JValue :=
  value_for_state
    (params.foldl (fun st p => jsonTxAddParam p.1 (toJ p.2) st)
      (jsonTxBeginCall method)) uuid

/-- `rx_response`: deserialize one value of the response type from the
channel; a closed channel with no value pending is an EOF. -/
def jsonRxResponse (fromJ : JValue → Except RPCError α)
    (input : List JValue) : Except RPCError α :=
  match input with
  | [] => Except.error jsonEofError
  | v :: _ => fromJ v

/-! #### JSON `ServerTransport` implementation -/

/-- `rx_begin_call`: read one JSON value, extract `method` (which must be
present and a string), and keep the whole value as the reception state. -/
def jsonRxBeginCall (ch : JChan) :
    Except RPCError (PartialMethodId × JValue) × JChan :=
  match ch.input with
  | [] => (Except.error jsonEofError, ch)
  | v :: rest =>
    match v.get "method" with
    | none =>
      (Except.error (RPCError.new RPCErrorKind.SerializationError
        "json is not expected object"), { ch with input := rest })
    | some mv =>
      match mv.asStr with
      | none =>
        (Except.error (RPCError.new RPCErrorKind.SerializationError
          "json method was not string"), { ch with input := rest })
      | some m => (Except.ok (PartialMethodId.Name m, v), { ch with input := rest })

/-- The body of `rx_read_param`: look up `params` in the stored request,
then the field under the parameter's name (failing with
`SerializationError` naming the missing parameter), and deserialize it. -/
def jsonRxReadParam (fromJ : JValue → Except RPCError α) (name : String)
    (state : JValue) : Except RPCError α :=
  match state.get "params" with
  | none =>
    Except.error (RPCError.new RPCErrorKind.SerializationError
      "json is not expected object")
  | some ps =>
    match ps.get name with
    | none =>
      Except.error (RPCError.new RPCErrorKind.SerializationError
        ("parameters do not contain " ++ name))
    | some v => fromJ v

/-- `rx_read_param` as a transport operation: its body touches only the
stored request value, never the channel. -/
def jsonRxReadParamOp (jc : JCodec α) (name : String) (rx : JValue)
    (ch : JChan) : Except RPCError α × JValue × JChan :=
  (jsonRxReadParam jc.fromJ name rx, rx, ch)

/-- `tx_response`: write the bare serialized result value, no envelope. -/
def jsonTxResponse (toJ : α → JValue) (value : α) (ch : JChan) :
    Except RPCError Unit × JChan :=
  (Except.ok (), { ch with output := ch.output ++ [toJ value] })

/-! ### Code generated by the `essrpc` attribute macro
    (`essrpc_macros/src/lib.rs`)

A trait declaration is abstracted as its list of methods, each a method
name together with the list of its declared parameter names, in
declaration order; the method's index is its position. Parameter values
are drawn from a type `V` and results from a type `R`, each equipped
with the serialization library's codec contract. -/

/-- `u32::MAX`, the sentinel returned by the generated
`method_num_from_name` when no arm matches. -/
def u32Max : Nat := 2 ^ 32 - 1

/-- The generated `method_num_from_name` match: name arms in declaration
order mapping to their indices, defaulting to `u32::MAX`. -/
def method_num_from_name_aux (methods : List (String × List String))
    (name : String) (acc : Nat) : Nat :=
  match methods with
  | [] => u32Max
  | m :: rest => if m.1 = name then acc else method_num_from_name_aux rest name (acc + 1)

/-- `method_num_from_name` (generated): resolve a method name to its
dispatch index, `u32::MAX` if the name is not declared. -/
def method_num_from_name (methods : List (String × List String))
    (name : String) : Nat :=
  method_num_from_name_aux methods name 0

/-- The sequence of `rx_read_param` calls emitted by
`create_server_match` for one method's declared parameters, in order. -/
def readParams {St RX V : Type}
    (rxRead : String → RX → St → Except RPCError V × RX × St) :
    List String → RX → St → Except RPCError (List V) × RX × St
  | [], rx, s => (Except.ok [], rx, s)
  | n :: ns, rx, s =>
    match rxRead n rx s with
    | (Except.error e, rx, s) => (Except.error e, rx, s)
    | (Except.ok v, rx, s) =>
      match readParams rxRead ns rx s with
      | (Except.error e, rx, s) => (Except.error e, rx, s)
      | (Except.ok vs, rx, s) => (Except.ok (v :: vs), rx, s)

/-- The generated `serve_single_call`: begin receiving, resolve the
partial method identifier to a dispatch index (directly for `Num`,
through the name table for `Name`), then either run the matching arm
(read that method's declared parameters in order, invoke the
implementation, transmit the response) or fall to the default arm, which
returns an `UnknownMethod` error to the serving caller. -/
def serveSingleCall {St RX V R : Type}
    (rxBegin : St → Except RPCError (PartialMethodId × RX) × St)
    (rxRead : String → RX → St → Except RPCError V × RX × St)
    (txResp : R → St → Except RPCError Unit × St)
    (methods : List (String × List String))
    (impl : Nat → List V → R)
    (s : St) : Except RPCError Unit × St :=
  match rxBegin s with
  | (Except.error e, s) => (Except.error e, s)
  | (Except.ok (pm, rx), s) =>
    let id := match pm with
      | PartialMethodId.Num num => num
      | PartialMethodId.Name name => method_num_from_name methods name
    if id < methods.length then
      match readParams rxRead (methods.getD id ("", [])).2 rx s with
      | (Except.error e, _, s) => (Except.error e, s)
      | (Except.ok args, _, s) => txResp (impl id args) s
    else
      (Except.error (RPCError.new RPCErrorKind.UnknownMethod
        ("Unknown rpc method " ++ pm.debugStr)), s)

/-- One whole client call against a server on a loopback channel, using
the bincode transport on both sides: the generated client performs
`tx_begin_call` / `tx_add_param` (in declared order, with the declared
parameter names) / `tx_finalize`, the peer runs the generated
`serve_single_call` over `impl`, and the client reads the response. -/
def bincodeLoopback (bc : BCodec V) (rc : BCodec R)
    (methods : List (String × List String)) (impl : Nat → List V → R)
    (i : Nat) (args : List V) : Except RPCError R :=
  let m := methods.getD i ("", [])
  let callBytes := bincodeClientCallBytes bc.enc ⟨m.1, i⟩ (m.2.zip args)
  let served := serveSingleCall bincodeRxBeginCall (bincodeRxReadParamOp bc)
    (bincodeTxResponse rc.enc) methods impl ⟨callBytes, []⟩
  bincodeRxResponse rc.dec served.2.output

/-- One whole client call against a server on a loopback channel, using
the JSON transport on both sides. -/
def jsonLoopback (jc : JCodec V) (jr : JCodec R)
    (methods : List (String × List String)) (impl : Nat → List V → R)
    (i : Nat) (args : List V) (uuid : String) : Except RPCError R :=
  let m := methods.getD i ("", [])
  let callVal := jsonClientCallValue jc.toJ ⟨m.1, i⟩ (m.2.zip args) uuid
  let served := serveSingleCall jsonRxBeginCall (jsonRxReadParamOp jc)
    (jsonTxResponse jr.toJ) methods impl ⟨[callVal], []⟩
  jsonRxResponse jr.fromJ served.2.output

/-! ### The `RPCServer` serve-loop default methods (`essrpc/src/lib.rs`)

`serve_until` and `serve` are default trait methods looping over an
abstract `serve_single_call` on mutable server state and over a mutable
(`FnMut`) condition closure; both are modelled over abstract stepping
functions, with explicit fuel standing in for the unbounded `loop`. -/

/-- The `serve_until` loop body, with fuel: perform one
`serve_single_call` (propagating its error with `?`), then evaluate the
condition; return `Ok(())` when it is false, loop otherwise. `none`
means the fuel ran out with the loop still running. -/
def serveUntilFuel {S C : Type} (step : S → Except RPCError Unit × S)
    (cond : C → Bool × C) : Nat → S → C → Option (Except RPCError Unit × S × C)
  | 0, _, _ => none
  | fuel + 1, s, c =>
    match step s with
    | (Except.error e, s) => some (Except.error e, s, c)
    | (Except.ok _, s) =>
      match cond c with
      | (false, c) => some (Except.ok (), s, c)
      | (true, c) => serveUntilFuel step cond fuel s c

/-- The `serve` loop, with fuel: perform `serve_single_call` forever,
returning only when one propagates an error. -/
def serveFuel {S : Type} (step : S → Except RPCError Unit × S) :
    Nat → S → Option (Except RPCError Unit × S)
  | 0, _ => none
  | fuel + 1, s =>
    match step s with
    | (Except.error e, s) => some (Except.error e, s)
    | (Except.ok _, s) => serveFuel step fuel s

/-- A stateful `serve_single_call` whose observable behavior along one
execution is the outcome sequence `outv`; the state counts calls made. -/
def stepOfSeq (outv : Nat → Except RPCError Unit) (n : Nat) :
    Except RPCError Unit × Nat :=
  (outv n, n + 1)

/-- A stateful `FnMut` condition whose observable behavior along one
execution is the boolean sequence `condv`; the state counts evaluations. -/
def condOfSeq (condv : Nat → Bool) (n : Nat) : Bool × Nat :=
  (condv n, n + 1)

/-! ### Helper lemmas: bincode framing -/

theorem magicBytes_length : magicBytes.length = 6 := rfl

theorem as_bytes_length (h : FrameHeader) : h.as_bytes.length = 10 := by
  simp [FrameHeader.as_bytes, magicBytes, u32le]

theorem take_u32le (n : Nat) : (u32le n).take 4 = u32le n := rfl

theorem from_bytes_as_bytes (n : Nat) :
    FrameHeader.from_bytes (FrameHeader.as_bytes ⟨n⟩) = Except.ok ⟨n % 2 ^ 32⟩ := by
  have htake : (FrameHeader.as_bytes ⟨n⟩).take 6 = magicBytes := by
    simp [FrameHeader.as_bytes, magicBytes, u32le]
  have hdrop : (FrameHeader.as_bytes ⟨n⟩).drop 6 = u32le n := by
    simp [FrameHeader.as_bytes, magicBytes, u32le]
  rw [FrameHeader.from_bytes, htake, hdrop, if_neg (by simp)]
  rw [take_u32le, FrameHeader.new, u32leDecode_u32le, Nat.mod_mod_of_dvd n dvd_rfl]

/-- The client transmission is the frame: magic, low-32-bit little-endian
payload length, payload; the payload being the method index's encoding
followed by the parameter encodings in order. -/
theorem bincodeClientCallBytes_spec (enc : α → List Nat) (method : MethodId)
    (params : List (String × α)) :
    bincodeClientCallBytes enc method params =
      magicBytes
        ++ u32le (u32le method.num ++ (params.map fun p => enc p.2).flatten).length
        ++ (u32le method.num ++ (params.map fun p => enc p.2).flatten) := by
  have hfold : ∀ (ps : List (String × α)) (init : List Nat),
      ps.foldl (fun st p => bincodeTxAddParam enc p.1 p.2 st) init =
        init ++ (ps.map fun p => enc p.2).flatten := by
    intro ps
    induction ps with
    | nil => intro init; simp
    | cons p ps ih =>
      intro init
      rw [List.foldl_cons, ih, bincodeTxAddParam, List.map_cons, List.flatten_cons,
        List.append_assoc]
  rw [bincodeClientCallBytes, bincodeTxFinalize, hfold, bincodeTxBeginCall,
    FrameHeader.as_bytes, FrameHeader.new]
  rw [u32le_mod, List.append_assoc]

/-- `bincodeClientCallBytes_spec`, specialized to a literal `MethodId` so
the projection is reduced. -/
theorem bincodeClientCallBytes_mk (enc : α → List Nat) (name : String) (num : Nat)
    (params : List (String × α)) :
    bincodeClientCallBytes enc ⟨name, num⟩ params =
      magicBytes
        ++ u32le (u32le num ++ (params.map fun p => enc p.2).flatten).length
        ++ (u32le num ++ (params.map fun p => enc p.2).flatten) :=
  bincodeClientCallBytes_spec enc ⟨name, num⟩ params

theorem chanReadExact_spec {n : Nat} (pre post out : List Nat) (h : pre.length = n) :
    chanReadExact n ⟨pre ++ post, out⟩ = (Except.ok pre, ⟨post, out⟩) := by
  have hge : ¬ ((pre ++ post).length < n) := by
    rw [List.length_append, h]; omega
  rw [chanReadExact, if_neg hge, List.take_left' h, List.drop_left' h]

theorem bincodeDeserializeU32_spec (m : Nat) (rest out : List Nat) :
    bincodeDeserializeU32 ⟨u32le m ++ rest, out⟩ =
      (Except.ok (m % 2 ^ 32), ⟨rest, out⟩) := by
  have h4 : (u32le m).length = 4 := rfl
  have hge : ¬ ((u32le m ++ rest).length < 4) := by
    rw [List.length_append, h4]; omega
  rw [bincodeDeserializeU32, if_neg hge, List.take_left' h4, List.drop_left' h4,
    u32leDecode_u32le]

theorem bincodeRxBeginCall_spec (L m : Nat) (rest out : List Nat) :
    bincodeRxBeginCall ⟨(magicBytes ++ u32le L) ++ (u32le m ++ rest), out⟩ =
      (Except.ok (PartialMethodId.Num (m % 2 ^ 32), ()), ⟨rest, out⟩) := by
  have hlen10 : (magicBytes ++ u32le L).length = FrameHeader.HEADER_LEN := by
    simp [magicBytes, u32le, FrameHeader.HEADER_LEN]
  have hfb : FrameHeader.from_bytes (magicBytes ++ u32le L) = Except.ok ⟨L % 2 ^ 32⟩ := by
    simpa [FrameHeader.as_bytes] using from_bytes_as_bytes L
  rw [bincodeRxBeginCall, chanReadExact_spec _ _ _ hlen10]
  simp [hfb, bincodeDeserializeU32_spec m rest out]

/-- Reading the declared parameters from the channel consumes exactly the
concatenation of their encodings and recovers the values. -/
theorem bincode_readParams (bc : BCodec V) :
    ∀ (names : List String) (args : List V), names.length = args.length →
    ∀ (suffix out : List Nat),
      readParams (bincodeRxReadParamOp bc) names ()
        ⟨(args.map bc.enc).flatten ++ suffix, out⟩ =
      (Except.ok args, (), ⟨suffix, out⟩) := by
  intro names
  induction names with
  | nil =>
    intro args hlen suffix out
    match args with
    | [] => simp [readParams]
    | _ :: _ => simp at hlen
  | cons n ns ih =>
    intro args hlen suffix out
    match args with
    | [] => simp at hlen
    | a :: as =>
      simp only [List.length_cons, Nat.add_right_cancel_iff] at hlen
      have ha := bc.dec_enc a ((as.map bc.enc).flatten ++ suffix)
      have hi := ih as hlen suffix out
      simp [readParams, bincodeRxReadParamOp, List.append_assoc, ha, hi]

theorem zip_map_snd_fn {α β γ : Type} (f : β → γ) :
    ∀ (names : List α) (vals : List β), names.length = vals.length →
      ((names.zip vals).map fun p => f p.2) = vals.map f := by
  intro names
  induction names with
  | nil =>
    intro vals h
    match vals with
    | [] => rfl
    | _ :: _ => simp at h
  | cons n ns ih =>
    intro vals h
    match vals with
    | [] => simp at h
    | v :: vs =>
      simp only [List.length_cons, Nat.add_right_cancel_iff] at h
      simp [List.zip_cons_cons, ih vs h]

theorem bincode_readParams_all (bc : BCodec V) (names : List String)
    (args : List V) (hlen : names.length = args.length) (out : List Nat) :
    readParams (bincodeRxReadParamOp bc) names ()
      ⟨(args.map bc.enc).flatten, out⟩ =
    (Except.ok args, (), ⟨[], out⟩) := by
  have := bincode_readParams bc names args hlen [] out
  simpa using this

theorem bincodeRxResponse_frame {α : Type}
    (dec : List Nat → Except RPCError (α × List Nat))
    (payload : List Nat) (h : payload.length < 2 ^ 32) :
    bincodeRxResponse dec ((FrameHeader.new payload.length).as_bytes ++ payload) =
      (match dec payload with
       | Except.error e => Except.error e
       | Except.ok (v, _) => Except.ok v) := by
  have hnew : FrameHeader.new payload.length = ⟨payload.length⟩ := by
    rw [FrameHeader.new, Nat.mod_eq_of_lt h]
  have h10 : (FrameHeader.as_bytes ⟨payload.length⟩).length = FrameHeader.HEADER_LEN :=
    as_bytes_length _
  have hge : ¬ ((FrameHeader.as_bytes ⟨payload.length⟩ ++ payload).length <
      FrameHeader.HEADER_LEN) := by
    rw [List.length_append, h10]; omega
  rw [hnew, bincodeRxResponse, if_neg hge, List.take_left' h10, List.drop_left' h10,
    from_bytes_as_bytes, Nat.mod_eq_of_lt h]
  simp only [FrameHeader.len, lt_self_iff_false, if_false, List.take_length]
  rfl

/-- The generated server, fed one well-formed bincode call for declared
method `i` with the right number of parameters, reads the whole call,
invokes the implementation on the decoded arguments, and writes exactly
one framed response carrying the implementation's result. -/
theorem bincodeServe_spec (bc : BCodec V) (rc : BCodec R)
    (methods : List (String × List String)) (impl : Nat → List V → R)
    (i : Nat) (args : List V)
    (hi : i < methods.length) (hi32 : i < 2 ^ 32)
    (hlen : (methods.getD i ("", [])).2.length = args.length) :
    serveSingleCall bincodeRxBeginCall (bincodeRxReadParamOp bc)
      (bincodeTxResponse rc.enc) methods impl
      ⟨bincodeClientCallBytes bc.enc ⟨(methods.getD i ("", [])).1, i⟩
        ((methods.getD i ("", [])).2.zip args), []⟩ =
    (Except.ok (), ⟨[], (FrameHeader.new (rc.enc (impl i args)).length).as_bytes
        ++ rc.enc (impl i args)⟩) := by
  have hzip : (((methods.getD i ("", [])).2.zip args).map fun p => bc.enc p.2)
      = args.map bc.enc := zip_map_snd_fn bc.enc _ args hlen
  have hrp := bincode_readParams_all bc (methods.getD i ("", [])).2 args hlen []
  rw [bincodeClientCallBytes_mk, hzip, serveSingleCall, bincodeRxBeginCall_spec]
  simp only [Nat.mod_eq_of_lt hi32, hi, if_true, hrp, bincodeTxResponse, chanWrite,
    List.nil_append]

/-- Bincode client/server round trip: the client's call over a loopback
channel served by the generated server returns exactly the value the
implementation returned. -/
theorem bincodeLoopback_ok (bc : BCodec V) (rc : BCodec R)
    (methods : List (String × List String)) (impl : Nat → List V → R)
    (i : Nat) (args : List V)
    (hi : i < methods.length) (hi32 : i < 2 ^ 32)
    (hlen : (methods.getD i ("", [])).2.length = args.length)
    (hresp : (rc.enc (impl i args)).length < 2 ^ 32) :
    bincodeLoopback bc rc methods impl i args = Except.ok (impl i args) := by
  have hde : rc.dec (rc.enc (impl i args)) = Except.ok (impl i args, []) := by
    simpa using rc.dec_enc (impl i args) []
  rw [bincodeLoopback]
  simp only [bincodeServe_spec bc rc methods impl i args hi hi32 hlen,
    bincodeRxResponse_frame rc.dec (rc.enc (impl i args)) hresp, hde]

/-! ### Helper lemmas: JSON envelope and parameter lookup -/

theorem value_for_state_get_method (st : JTXState) (uuid : String) :
    (value_for_state st uuid).get "method" = some (.str st.method) := by
  simp [value_for_state, JValue.get, lookupField]

theorem value_for_state_get_params (st : JTXState) (uuid : String) :
    (value_for_state st uuid).get "params" = some (.obj st.params) := by
  simp [value_for_state, JValue.get, lookupField]

theorem lookupField_insert_self (fs : List (String × JValue)) (k : String) (v : JValue) :
    lookupField (insertField fs k v) k = some v := by
  induction fs with
  | nil => simp [insertField, lookupField]
  | cons f rest ih =>
    by_cases h : f.1 = k
    · simp [insertField, h, lookupField]
    · simp [insertField, h, lookupField, ih]

theorem lookupField_insert_other (fs : List (String × JValue)) (k k' : String)
    (v : JValue) (h : k' ≠ k) :
    lookupField (insertField fs k v) k' = lookupField fs k' := by
  induction fs with
  | nil => simp [insertField, lookupField, Ne.symm h]
  | cons f rest ih =>
    by_cases hf : f.1 = k
    · have hkk' : ¬ (k = k') := fun e => h e.symm
      have hfk' : ¬ (f.1 = k') := by rw [hf]; exact hkk'
      simp [insertField, hf, lookupField, hkk', hfk']
    · simp [insertField, hf, lookupField, ih]

theorem lookup_foldl_insert_not_mem (n : String) :
    ∀ (ps : List (String × JValue)) (acc : List (String × JValue)),
      n ∉ ps.map Prod.fst →
      lookupField (ps.foldl (fun a p => insertField a p.1 p.2) acc) n =
        lookupField acc n := by
  intro ps
  induction ps with
  | nil => intro acc _; rfl
  | cons p rest ih =>
    intro acc hmem
    simp only [List.map_cons, List.mem_cons, not_or] at hmem
    rw [List.foldl_cons, ih _ hmem.2, lookupField_insert_other _ _ _ _ hmem.1]

theorem lookup_foldl_insert_mem (n : String) (v : JValue) :
    ∀ (ps : List (String × JValue)) (acc : List (String × JValue)),
      (ps.map Prod.fst).Nodup → (n, v) ∈ ps →
      lookupField (ps.foldl (fun a p => insertField a p.1 p.2) acc) n = some v := by
  intro ps
  induction ps with
  | nil => intro acc _ hmem; simp at hmem
  | cons p rest ih =>
    intro acc hnd hmem
    simp only [List.map_cons, List.nodup_cons] at hnd
    rcases List.mem_cons.1 hmem with heq | htail
    · subst heq
      rw [List.foldl_cons, lookup_foldl_insert_not_mem _ _ _ hnd.1,
        lookupField_insert_self]
    · rw [List.foldl_cons, ih _ hnd.2 htail]

/-! ### Helper lemmas: the generated name table and JSON dispatch -/

theorem method_num_from_name_aux_spec (d : String × List String) :
    ∀ (l : List (String × List String)) (i acc : Nat), i < l.length →
      (∀ j, j < i → (l.getD j d).1 ≠ (l.getD i d).1) →
      method_num_from_name_aux l ((l.getD i d).1) acc = acc + i := by
  intro l
  induction l with
  | nil => intro i acc hi; simp at hi
  | cons m rest ih =>
    intro i acc hi hne
    match i with
    | 0 =>
      simp only [List.getD_cons_zero, method_num_from_name_aux, if_pos rfl,
        if_true, Nat.add_zero]
    | j + 1 =>
      have hm : m.1 ≠ ((m :: rest).getD (j + 1) d).1 := hne 0 (Nat.succ_pos j)
      rw [method_num_from_name_aux, if_neg (by simpa using hm)]
      have hj : j < rest.length := by simpa using hi
      have hshift : ∀ j', j' < j → (rest.getD j' d).1 ≠ (rest.getD j d).1 := by
        intro j' hj'
        have := hne (j' + 1) (by omega)
        simpa using this
      have := ih j (acc + 1) hj hshift
      simp only [List.getD_cons_succ] at hm ⊢
      rw [this]
      omega

theorem method_num_from_name_not_mem (name : String) :
    ∀ (l : List (String × List String)), name ∉ l.map Prod.fst →
      method_num_from_name l name = u32Max := by
  intro l
  have : ∀ acc, name ∉ l.map Prod.fst → method_num_from_name_aux l name acc = u32Max := by
    induction l with
    | nil => intro acc _; rfl
    | cons m rest ih =>
      intro acc hmem
      simp only [List.map_cons, List.mem_cons, not_or] at hmem
      rw [method_num_from_name_aux, if_neg (fun e => hmem.1 e.symm), ih _ hmem.2]
  exact fun h => this 0 h

theorem method_table_lookup (methods : List (String × List String)) (i : Nat)
    (hi : i < methods.length) (hnd : (methods.map Prod.fst).Nodup) :
    method_num_from_name methods (methods.getD i ("", [])).1 = i := by
  have hne : ∀ j, j < i → (methods.getD j ("", [])).1 ≠ (methods.getD i ("", [])).1 := by
    intro j hj heq
    have hj' : j < methods.length := lt_trans hj hi
    rw [List.getD_eq_get _ _ hj', List.getD_eq_get _ _ hi] at heq
    have hgm : (methods.map Prod.fst).get ⟨j, by simpa using hj'⟩ =
        (methods.map Prod.fst).get ⟨i, by simpa using hi⟩ := by
      simpa using heq
    have := (List.Nodup.get_inj_iff hnd).1 hgm
    simp only [Fin.mk.injEq] at this
    omega
  have := method_num_from_name_aux_spec ("", []) methods i 0 hi hne
  rw [method_num_from_name, this, Nat.zero_add]

/-- Pure characterization of the sequence of JSON parameter reads: each
read is an independent lookup into the stored request. -/
def jsonReadParamsPure {V : Type} (core : String → Except RPCError V) :
    List String → Except RPCError (List V)
  | [] => Except.ok []
  | n :: ns =>
    match core n with
    | Except.error e => Except.error e
    | Except.ok v =>
      match jsonReadParamsPure core ns with
      | Except.error e => Except.error e
      | Except.ok vs => Except.ok (v :: vs)

/-- Reading JSON parameters never touches the channel or the stored
request; the outcome is the pure per-name lookup sequence. -/
theorem json_readParams_pure (jc : JCodec V) (names : List String)
    (rx : JValue) (ch : JChan) :
    readParams (jsonRxReadParamOp jc) names rx ch =
      (jsonReadParamsPure (fun n => jsonRxReadParam jc.fromJ n rx) names, rx, ch) := by
  induction names with
  | nil => rfl
  | cons n ns ih =>
    rw [readParams, jsonRxReadParamOp, jsonReadParamsPure]
    cases hc : jsonRxReadParam jc.fromJ n rx with
    | error e => rfl
    | ok v =>
      simp only [ih]
      cases hr : jsonReadParamsPure (fun n => jsonRxReadParam jc.fromJ n rx) ns with
      | error e => rfl
      | ok vs => rfl

theorem jsonReadParamsPure_ok {V : Type} (core : String → Except RPCError V) :
    ∀ (names : List String) (args : List V), names.length = args.length →
      (∀ p ∈ names.zip args, core p.1 = Except.ok p.2) →
      jsonReadParamsPure core names = Except.ok args := by
  intro names
  induction names with
  | nil =>
    intro args hlen _
    match args with
    | [] => rfl
    | _ :: _ => simp at hlen
  | cons n ns ih =>
    intro args hlen hall
    match args with
    | [] => simp at hlen
    | a :: as =>
      simp only [List.length_cons, Nat.add_right_cancel_iff] at hlen
      have hhead : core n = Except.ok a := hall (n, a) (by simp [List.zip_cons_cons])
      have htail : ∀ p ∈ ns.zip as, core p.1 = Except.ok p.2 := by
        intro p hp
        exact hall p (by simp [List.zip_cons_cons, hp])
      rw [jsonReadParamsPure, hhead, ih as hlen htail]

theorem zip_map_fst {α β : Type} :
    ∀ (names : List α) (vals : List β), names.length = vals.length →
      ((names.zip vals).map Prod.fst) = names := by
  intro names
  induction names with
  | nil =>
    intro vals h
    match vals with
    | [] => rfl
    | _ :: _ => simp at h
  | cons n ns ih =>
    intro vals h
    match vals with
    | [] => simp at h
    | v :: vs =>
      simp only [List.length_cons, Nat.add_right_cancel_iff] at h
      simp [List.zip_cons_cons, ih vs h]

theorem json_fold_add_param (toJ : α → JValue) (ps : List (String × α)) :
    ∀ (st : JTXState),
      ps.foldl (fun s p => jsonTxAddParam p.1 (toJ p.2) s) st =
        ⟨st.method,
          (ps.map fun p => (p.1, toJ p.2)).foldl (fun a q => insertField a q.1 q.2)
            st.params⟩ := by
  induction ps with
  | nil => intro st; rfl
  | cons p rest ih =>
    intro st
    rw [List.foldl_cons, ih, List.map_cons, List.foldl_cons]
    rfl

theorem jsonClientCallValue_eq (jc : JCodec V) (name : String) (num : Nat)
    (pairs : List (String × V)) (uuid : String) :
    jsonClientCallValue jc.toJ ⟨name, num⟩ pairs uuid =
      value_for_state
        ⟨name, (pairs.map fun p => (p.1, jc.toJ p.2)).foldl
            (fun a q => insertField a q.1 q.2) []⟩ uuid := by
  rw [jsonClientCallValue, json_fold_add_param]
  rfl

theorem jsonRxBeginCall_spec (st : JTXState) (uuid : String) (rest : List JValue)
    (out : List JValue) :
    jsonRxBeginCall ⟨value_for_state st uuid :: rest, out⟩ =
      (Except.ok (PartialMethodId.Name st.method, value_for_state st uuid),
        ⟨rest, out⟩) := by
  simp [jsonRxBeginCall, value_for_state_get_method, JValue.asStr]

/-- Each declared parameter of the dispatched method is recovered from
the request's `params` object by name. -/
theorem json_param_read_ok (jc : JCodec V) (names : List String) (args : List V)
    (hlen : names.length = args.length) (hpnd : names.Nodup)
    (st : JTXState) (uuid : String)
    (hparams : st.params = ((names.zip args).map fun p => (p.1, jc.toJ p.2)).foldl
        (fun a q => insertField a q.1 q.2) []) :
    ∀ p ∈ names.zip args,
      jsonRxReadParam jc.fromJ p.1 (value_for_state st uuid) = Except.ok p.2 := by
  intro p hp
  have hmem : (p.1, jc.toJ p.2) ∈ (names.zip args).map fun q => (q.1, jc.toJ q.2) :=
    List.mem_map_of_mem _ hp
  have hkeys : (((names.zip args).map fun q => (q.1, jc.toJ q.2)).map Prod.fst).Nodup := by
    have : ((names.zip args).map fun q => (q.1, jc.toJ q.2)).map Prod.fst =
        (names.zip args).map Prod.fst := by
      simp [List.map_map, Function.comp]
    rw [this, zip_map_fst names args hlen]
    exact hpnd
  have hlook : lookupField (((names.zip args).map fun q => (q.1, jc.toJ q.2)).foldl
      (fun a q => insertField a q.1 q.2) []) p.1 = some (jc.toJ p.2) :=
    lookup_foldl_insert_mem p.1 (jc.toJ p.2) _ [] hkeys hmem
  rw [jsonRxReadParam, value_for_state_get_params]
  simp only [JValue.get, ← hparams] at hlook ⊢
  rw [hparams] at hlook
  rw [← hparams] at hlook
  simp [hlook, jc.from_to]

/-- The generated server, fed one well-formed JSON request for declared
method `i` with the right parameters, resolves the name through the
generated table, reads the parameters by name, invokes the
implementation, and writes exactly one bare response value. -/
theorem jsonServe_spec (jc : JCodec V) (jr : JCodec R)
    (methods : List (String × List String)) (impl : Nat → List V → R)
    (i : Nat) (args : List V) (uuid : String)
    (hi : i < methods.length)
    (hlen : (methods.getD i ("", [])).2.length = args.length)
    (hpnd : (methods.getD i ("", [])).2.Nodup)
    (hmnd : (methods.map Prod.fst).Nodup) :
    serveSingleCall jsonRxBeginCall (jsonRxReadParamOp jc) (jsonTxResponse jr.toJ)
      methods impl
      ⟨[jsonClientCallValue jc.toJ ⟨(methods.getD i ("", [])).1, i⟩
          ((methods.getD i ("", [])).2.zip args) uuid], []⟩ =
    (Except.ok (), ⟨[], [jr.toJ (impl i args)]⟩) := by
  rw [jsonClientCallValue_eq]
  have hper := json_param_read_ok jc (methods.getD i ("", [])).2 args hlen hpnd
    ⟨(methods.getD i ("", [])).1,
      (((methods.getD i ("", [])).2.zip args).map fun p => (p.1, jc.toJ p.2)).foldl
        (fun a q => insertField a q.1 q.2) []⟩ uuid rfl
  have hrp : readParams (jsonRxReadParamOp jc) (methods.getD i ("", [])).2
      (value_for_state
        ⟨(methods.getD i ("", [])).1,
          (((methods.getD i ("", [])).2.zip args).map fun p => (p.1, jc.toJ p.2)).foldl
            (fun a q => insertField a q.1 q.2) []⟩ uuid)
      ⟨[], []⟩ =
      (Except.ok args,
        value_for_state
          ⟨(methods.getD i ("", [])).1,
            (((methods.getD i ("", [])).2.zip args).map fun p => (p.1, jc.toJ p.2)).foldl
              (fun a q => insertField a q.1 q.2) []⟩ uuid,
        ⟨[], []⟩) := by
    rw [json_readParams_pure, jsonReadParamsPure_ok _ _ args hlen hper]
  rw [serveSingleCall, jsonRxBeginCall_spec]
  simp only [method_table_lookup methods i hi hmnd, hi, if_true, hrp,
    jsonTxResponse, List.nil_append]

/-- JSON client/server round trip. -/
theorem jsonLoopback_ok (jc : JCodec V) (jr : JCodec R)
    (methods : List (String × List String)) (impl : Nat → List V → R)
    (i : Nat) (args : List V) (uuid : String)
    (hi : i < methods.length)
    (hlen : (methods.getD i ("", [])).2.length = args.length)
    (hpnd : (methods.getD i ("", [])).2.Nodup)
    (hmnd : (methods.map Prod.fst).Nodup) :
    jsonLoopback jc jr methods impl i args uuid = Except.ok (impl i args) := by
  rw [jsonLoopback]
  simp only [jsonServe_spec jc jr methods impl i args uuid hi hlen hpnd hmnd,
    jsonRxResponse, jr.from_to]

/-! ### Helper lemmas: error kinds, lookup characterization, EOF prefixes -/

/-- The operation failed with an error of the given kind. -/
def failsWithKind {α : Type} (r : Except RPCError α) (k : RPCErrorKind) : Prop :=
  match r with
  | Except.error e => e.kind = k
  | Except.ok _ => False

instance {α : Type} (r : Except RPCError α) (k : RPCErrorKind) :
    Decidable (failsWithKind r k) := by
  unfold failsWithKind
  match r with
  | Except.error e => exact inferInstanceAs (Decidable (e.kind = k))
  | Except.ok _ => exact inferInstanceAs (Decidable False)

theorem lookupField_eq_some_iff (l : List (String × JValue)) (n : String) (v : JValue)
    (hnd : (l.map Prod.fst).Nodup) :
    lookupField l n = some v ↔ (n, v) ∈ l := by
  induction l with
  | nil => simp [lookupField]
  | cons f rest ih =>
    simp only [List.map_cons, List.nodup_cons] at hnd
    rw [lookupField]
    by_cases hf : f.1 = n
    · rw [if_pos hf]
      simp only [Option.some.injEq, List.mem_cons]
      constructor
      · intro hv
        left
        cases f with
        | mk a b =>
          simp only at hf hv
          rw [Prod.mk.injEq]
          exact ⟨hf.symm, hv.symm⟩
      · intro h
        rcases h with heq | htail
        · cases f with
          | mk a b =>
            rw [Prod.mk.injEq] at heq
            exact heq.2.symm
        · exfalso
          apply hnd.1
          rw [hf]
          exact List.mem_map_of_mem Prod.fst htail
    · rw [if_neg hf, ih hnd.2]
      simp only [List.mem_cons]
      constructor
      · exact fun h => Or.inr h
      · intro h
        rcases h with heq | htail
        · exfalso
          apply hf
          cases f with
          | mk a b =>
            rw [Prod.mk.injEq] at heq
            exact heq.1.symm
        · exact htail

theorem lookupField_eq_none_iff (l : List (String × JValue)) (n : String) :
    lookupField l n = none ↔ n ∉ l.map Prod.fst := by
  induction l with
  | nil => simp [lookupField]
  | cons f rest ih =>
    by_cases hf : f.1 = n
    · rw [lookupField, if_pos hf]
      simp [hf]
    · rw [lookupField, if_neg hf]
      simp only [List.map_cons, List.mem_cons, not_or, ih]
      constructor
      · exact fun h => ⟨fun e => hf e.symm, h⟩
      · exact fun h => h.2

/-- With unique keys, field lookup is invariant under permutation of the
object's fields. -/
theorem lookupField_perm (l l' : List (String × JValue)) (h : l.Perm l')
    (hnd : (l.map Prod.fst).Nodup) (n : String) :
    lookupField l n = lookupField l' n := by
  have hnd' : (l'.map Prod.fst).Nodup := ((h.map Prod.fst).nodup_iff).1 hnd
  cases hl : lookupField l n with
  | some v =>
    have hmem := (lookupField_eq_some_iff l n v hnd).1 hl
    exact ((lookupField_eq_some_iff l' n v hnd').2 (h.mem_iff.1 hmem)).symm
  | none =>
    have hmem := (lookupField_eq_none_iff l n).1 hl
    have : n ∉ l'.map Prod.fst := fun hc => hmem (((h.map Prod.fst).mem_iff).2 hc)
    exact ((lookupField_eq_none_iff l' n).2 this).symm

/-- Any strict prefix of a framed bincode response makes `rx_response`
fail with the EOF error, whether the truncation falls in the header or
in the payload. -/
theorem bincodeRxResponse_prefix_eof {α : Type}
    (dec : List Nat → Except RPCError (α × List Nat))
    (payload : List Nat) (k : Nat) (hp : payload.length < 2 ^ 32)
    (hk : k < 10 + payload.length) :
    bincodeRxResponse dec
      ((((FrameHeader.new payload.length).as_bytes) ++ payload).take k) =
      Except.error rpcErrorFromIoEof := by
  have hnew : FrameHeader.new payload.length = ⟨payload.length⟩ := by
    rw [FrameHeader.new, Nat.mod_eq_of_lt hp]
  rw [hnew]
  have h10 : (FrameHeader.as_bytes ⟨payload.length⟩).length = 10 := as_bytes_length _
  have hflen : ((FrameHeader.as_bytes ⟨payload.length⟩) ++ payload).length =
      10 + payload.length := by
    rw [List.length_append, h10]
  have htlen : (((FrameHeader.as_bytes ⟨payload.length⟩) ++ payload).take k).length = k := by
    rw [List.length_take, hflen]; omega
  by_cases hk10 : k < 10
  · rw [bincodeRxResponse, if_pos (by rw [htlen]; exact hk10)]
  · have ht10 : (((FrameHeader.as_bytes ⟨payload.length⟩) ++ payload).take k).take 10 =
        FrameHeader.as_bytes ⟨payload.length⟩ := by
      rw [List.take_take, min_eq_left (by omega), List.take_left' h10]
    have hdlen : ((((FrameHeader.as_bytes ⟨payload.length⟩) ++ payload).take k).drop 10).length
        = k - 10 := by
      rw [List.length_drop, htlen]
    rw [bincodeRxResponse]
    simp only [FrameHeader.HEADER_LEN]
    rw [if_neg (by rw [htlen]; omega), ht10, from_bytes_as_bytes, Nat.mod_eq_of_lt hp]
    simp only [FrameHeader.len]
    rw [if_pos (by rw [hdlen]; omega)]

/-- Any prefix of a call shorter than header plus method index makes
`rx_begin_call` fail with kind `TransportEOF`, whether the truncation
falls in the header or in the method index. -/
theorem bincodeRxBeginCall_prefix_eof (L : Nat) (payload out : List Nat) (k : Nat)
    (hk : k < 14) :
    failsWithKind
      (bincodeRxBeginCall ⟨((magicBytes ++ u32le L) ++ payload).take k, out⟩).1
      RPCErrorKind.TransportEOF := by
  have h10 : (magicBytes ++ u32le L).length = 10 := by simp [magicBytes, u32le]
  have hflen : ((magicBytes ++ u32le L) ++ payload).length = 10 + payload.length := by
    rw [List.length_append, h10]
  have htlen : (((magicBytes ++ u32le L) ++ payload).take k).length =
      min k (10 + payload.length) := by
    rw [List.length_take, hflen]
  by_cases hk10 : min k (10 + payload.length) < 10
  · rw [bincodeRxBeginCall, chanReadExact]
    simp only [FrameHeader.HEADER_LEN]
    rw [if_pos (by rw [htlen]; exact hk10)]
    exact rfl
  · have hk10' : 10 ≤ k := le_trans (not_lt.1 hk10) (min_le_left _ _)
    have ht10 : (((magicBytes ++ u32le L) ++ payload).take k).take 10 =
        magicBytes ++ u32le L := by
      rw [List.take_take, min_eq_left hk10', List.take_left' h10]
    have hfb : FrameHeader.from_bytes (magicBytes ++ u32le L) = Except.ok ⟨L % 2 ^ 32⟩ := by
      simpa [FrameHeader.as_bytes] using from_bytes_as_bytes L
    have hdlen : ((((magicBytes ++ u32le L) ++ payload).take k).drop 10).length =
        min k (10 + payload.length) - 10 := by
      rw [List.length_drop, htlen]
    rw [bincodeRxBeginCall, chanReadExact]
    simp only [FrameHeader.HEADER_LEN]
    rw [if_neg (by rw [htlen]; exact hk10), ht10]
    simp only [hfb]
    rw [bincodeDeserializeU32, if_pos (by rw [hdlen]; omega)]
    exact rfl

theorem jsonRxBeginCall_method (v : JValue) (name : String) (rest : List JValue)
    (out : List JValue) (hv : v.get "method" = some (JValue.str name)) :
    jsonRxBeginCall ⟨v :: rest, out⟩ =
      (Except.ok (PartialMethodId.Name name, v), ⟨rest, out⟩) := by
  simp [jsonRxBeginCall, hv, JValue.asStr]

/-- `bincodeRxBeginCall` never looks at the decoded header length: its
whole result is a function of the bytes after the 10-byte header. -/
theorem bincodeRxBeginCall_ignores_len (L : Nat) (p out : List Nat) :
    bincodeRxBeginCall ⟨(magicBytes ++ u32le L) ++ p, out⟩ =
      (match bincodeDeserializeU32 ⟨p, out⟩ with
       | (Except.error e, ch) => (Except.error e, ch)
       | (Except.ok methodId, ch) => (Except.ok (PartialMethodId.Num methodId, ()), ch)) := by
  have h10 : (magicBytes ++ u32le L).length = FrameHeader.HEADER_LEN := by
    simp [magicBytes, u32le, FrameHeader.HEADER_LEN]
  have hfb : FrameHeader.from_bytes (magicBytes ++ u32le L) = Except.ok ⟨L % 2 ^ 32⟩ := by
    simpa [FrameHeader.as_bytes] using from_bytes_as_bytes L
  rw [bincodeRxBeginCall, chanReadExact_spec _ _ _ h10]
  simp only [hfb]

/-! ### Helper lemmas: serve loops -/

theorem serveUntilFuel_ok (outv : Nat → Except RPCError Unit) (condv : Nat → Bool) :
    ∀ (k fuel s c : Nat),
      (∀ j, j ≤ k → outv (s + j) = Except.ok ()) →
      (∀ j, j < k → condv (c + j) = true) →
      condv (c + k) = false → k < fuel →
      serveUntilFuel (stepOfSeq outv) (condOfSeq condv) fuel s c =
        some (Except.ok (), s + k + 1, c + k + 1) := by
  intro k
  induction k with
  | zero =>
    intro fuel s c hout _ hcond hfuel
    match fuel with
    | f + 1 =>
      rw [serveUntilFuel, stepOfSeq]
      rw [show outv s = Except.ok () from by simpa using hout 0 (le_refl 0)]
      rw [condOfSeq]
      rw [show condv c = false from by simpa using hcond]
  | succ k ih =>
    intro fuel s c hout hcond hcondk hfuel
    match fuel with
    | f + 1 =>
      rw [serveUntilFuel, stepOfSeq]
      rw [show outv s = Except.ok () from by simpa using hout 0 (Nat.zero_le _)]
      rw [condOfSeq]
      rw [show condv c = true from by simpa using hcond 0 (Nat.succ_pos k)]
      have h1 : ∀ j, j ≤ k → outv (s + 1 + j) = Except.ok () := by
        intro j hj
        have := hout (j + 1) (by omega)
        simpa [Nat.add_assoc, Nat.add_comm 1 j] using this
      have h2 : ∀ j, j < k → condv (c + 1 + j) = true := by
        intro j hj
        have := hcond (j + 1) (by omega)
        simpa [Nat.add_assoc, Nat.add_comm 1 j] using this
      have h3 : condv (c + 1 + k) = false := by
        have : c + 1 + k = c + (k + 1) := by omega
        rw [this]; exact hcondk
      have := ih f (s + 1) (c + 1) h1 h2 h3 (by omega)
      simp only [this]
      have e1 : s + 1 + k + 1 = s + (k + 1) + 1 := by omega
      have e2 : c + 1 + k + 1 = c + (k + 1) + 1 := by omega
      rw [e1, e2]

theorem serveUntilFuel_err (outv : Nat → Except RPCError Unit) (condv : Nat → Bool)
    (e : RPCError) :
    ∀ (k fuel s c : Nat),
      (∀ j, j < k → outv (s + j) = Except.ok ()) →
      (∀ j, j < k → condv (c + j) = true) →
      outv (s + k) = Except.error e → k < fuel →
      serveUntilFuel (stepOfSeq outv) (condOfSeq condv) fuel s c =
        some (Except.error e, s + k + 1, c + k) := by
  intro k
  induction k with
  | zero =>
    intro fuel s c _ _ herr hfuel
    match fuel with
    | f + 1 =>
      rw [serveUntilFuel, stepOfSeq]
      rw [show outv s = Except.error e from by simpa using herr]
      rfl
  | succ k ih =>
    intro fuel s c hout hcond herr hfuel
    match fuel with
    | f + 1 =>
      rw [serveUntilFuel, stepOfSeq]
      rw [show outv s = Except.ok () from by simpa using hout 0 (Nat.succ_pos k)]
      rw [condOfSeq]
      rw [show condv c = true from by simpa using hcond 0 (Nat.succ_pos k)]
      have h1 : ∀ j, j < k → outv (s + 1 + j) = Except.ok () := by
        intro j hj
        have := hout (j + 1) (by omega)
        simpa [Nat.add_assoc, Nat.add_comm 1 j] using this
      have h2 : ∀ j, j < k → condv (c + 1 + j) = true := by
        intro j hj
        have := hcond (j + 1) (by omega)
        simpa [Nat.add_assoc, Nat.add_comm 1 j] using this
      have h3 : outv (s + 1 + k) = Except.error e := by
        have : s + 1 + k = s + (k + 1) := by omega
        rw [this]; exact herr
      have := ih f (s + 1) (c + 1) h1 h2 h3 (by omega)
      simp only [this]
      have e1 : s + 1 + k + 1 = s + (k + 1) + 1 := by omega
      have e2 : c + 1 + k = c + (k + 1) := by omega
      rw [e1, e2]

theorem serveFuel_never_ok (outv : Nat → Except RPCError Unit) :
    ∀ (fuel s s' : Nat),
      serveFuel (stepOfSeq outv) fuel s ≠ some (Except.ok (), s') := by
  intro fuel
  induction fuel with
  | zero => intro s s' h; exact Option.noConfusion h
  | succ f ih =>
    intro s s' h
    rw [serveFuel, stepOfSeq] at h
    cases ho : outv s with
    | error e =>
      rw [ho] at h
      simp at h
    | ok u =>
      rw [ho] at h
      exact ih (s + 1) s' h

theorem serveFuel_first_err (outv : Nat → Except RPCError Unit) (e : RPCError) :
    ∀ (k fuel s : Nat),
      (∀ j, j < k → outv (s + j) = Except.ok ()) →
      outv (s + k) = Except.error e → k < fuel →
      serveFuel (stepOfSeq outv) fuel s = some (Except.error e, s + k + 1) := by
  intro k
  induction k with
  | zero =>
    intro fuel s _ herr hfuel
    match fuel with
    | f + 1 =>
      rw [serveFuel, stepOfSeq]
      rw [show outv s = Except.error e from by simpa using herr]
  | succ k ih =>
    intro fuel s hout herr hfuel
    match fuel with
    | f + 1 =>
      rw [serveFuel, stepOfSeq]
      rw [show outv s = Except.ok () from by simpa using hout 0 (Nat.succ_pos k)]
      have h1 : ∀ j, j < k → outv (s + 1 + j) = Except.ok () := by
        intro j hj
        have := hout (j + 1) (by omega)
        simpa [Nat.add_assoc, Nat.add_comm 1 j] using this
      have h3 : outv (s + 1 + k) = Except.error e := by
        have : s + 1 + k = s + (k + 1) := by omega
        rw [this]; exact herr
      have := ih f (s + 1) h1 h3 (by omega)
      simp only [this]
      have e1 : s + 1 + k + 1 = s + (k + 1) + 1 := by omega
      rw [e1]

/-! ### Concrete codec instances (for witnesses): `bool`

bincode serializes a `bool` as one byte, 0 or 1; serde_json as a JSON
boolean. -/

def boolBCodec : BCodec Bool where
  enc b := [if b then 1 else 0]
  dec bytes :=
    match bytes with
    | [] => Except.error bincodeEofError
    | b :: rest =>
      if b = 1 then Except.ok (true, rest)
      else if b = 0 then Except.ok (false, rest)
      else Except.error
        (RPCError.new RPCErrorKind.SerializationError "bincode deserialization failure")
  dec_enc := by
    intro a rest
    cases a <;> simp

def boolJCodec : JCodec Bool where
  toJ b := JValue.bool b
  fromJ v :=
    match v with
    | JValue.bool b => Except.ok b
    | _ => Except.error
        (RPCError.new RPCErrorKind.SerializationError
          "json serialization or deserialization failed")
  from_to := by intro a; rfl

/-! ### The claims -/

/-- C1. For every declared method, every tuple of serializable argument
values, and each of the two concrete codecs (`BincodeTransport` and
`JSONTransport`) bound to a loopback duplex channel, a generated
client's invocation of that method (`tx_begin_call`, `tx_add_param` per
parameter in declared order, `tx_finalize`, `rx_response`), with the
peer running the generated `serve_single_call` over a matching
implementation, returns exactly the `Result` value the implementation
returned for those arguments; both the success arm and the
application-error arm are preserved unchanged across the round trip
(the result type `R` is arbitrary, covering both arms of the user's
`Result`). Serializability is the codec contract; the side conditions
are those of a declared trait method: a declared index below the (u32)
method count, matching arity, distinct parameter and method names, and
a response that fits the 4-byte length field. -/
theorem claim_c1_roundtrip (V R : Type) (bc : BCodec V) (rc : BCodec R)
    (jc : JCodec V) (jr : JCodec R)
    (methods : List (String × List String)) (impl : Nat → List V → R)
    (i : Nat) (args : List V) (uuid : String)
    (hi : i < methods.length) (hi32 : i < 2 ^ 32)
    (hlen : (methods.getD i ("", [])).2.length = args.length)
    (hresp : (rc.enc (impl i args)).length < 2 ^ 32)
    (hpnd : (methods.getD i ("", [])).2.Nodup)
    (hmnd : (methods.map Prod.fst).Nodup) :
    bincodeLoopback bc rc methods impl i args = Except.ok (impl i args)
    ∧ jsonLoopback jc jr methods impl i args uuid = Except.ok (impl i args) :=
  ⟨bincodeLoopback_ok bc rc methods impl i args hi hi32 hlen hresp,
   jsonLoopback_ok jc jr methods impl i args uuid hi hlen hpnd hmnd⟩

theorem claim_c1_roundtrip_witness :
    bincodeLoopback boolBCodec boolBCodec [("bar", ["a", "b"])]
        (fun _ l => l.all id) 0 [true, false] = Except.ok false
    ∧ jsonLoopback boolJCodec boolJCodec [("bar", ["a", "b"])]
        (fun _ l => l.all id) 0 [true, false] "uuid-1" = Except.ok false := by
  have h := claim_c1_roundtrip Bool Bool boolBCodec boolBCodec boolJCodec boolJCodec
    [("bar", ["a", "b"])] (fun _ l => l.all id) 0 [true, false] "uuid-1"
    (by decide) (by decide) (by decide) (by decide) (by decide) (by decide)
  exact ⟨h.1, h.2⟩

/-- C2. For every method identifier and every sequence of parameters
(each given by its bincode encoding), the bytes the bincode client
transport writes for one call are exactly: the 6 magic bytes "ESSRPC",
then the payload length as a 4-byte little-endian unsigned integer
(its low 32 bits, which is the length itself whenever it fits), then
the payload, where the payload is the bincode encoding of the method's
u32 index followed by each parameter's encoding in the order the
parameters were added; and the parameter names (and the method's name)
have no effect on the bytes written. -/
theorem claim_c2_call_frame_bytes (name : String) (num : Nat)
    (ps : List (String × List Nat)) :
    bincodeClientCallBytes id ⟨name, num⟩ ps =
      magicBytes ++ u32le (u32le num ++ (ps.map fun p => p.2).flatten).length
        ++ (u32le num ++ (ps.map fun p => p.2).flatten)
    ∧ ∀ (name' : String) (ps' : List (String × List Nat)),
        ps.map (fun p => p.2) = ps'.map (fun p => p.2) →
        bincodeClientCallBytes id ⟨name, num⟩ ps =
          bincodeClientCallBytes id ⟨name', num⟩ ps' := by
  constructor
  · have h := bincodeClientCallBytes_mk (α := List Nat) id name num ps
    simpa using h
  · intro name' ps' hsnd
    rw [bincodeClientCallBytes_mk, bincodeClientCallBytes_mk]
    have h2 : (ps.map fun p => id p.2) = (ps'.map fun p => id p.2) := by
      simpa using hsnd
    rw [h2]

theorem claim_c2_call_frame_bytes_witness :
    bincodeClientCallBytes id ⟨"bar", 1⟩ [("a", [7, 8])] =
      magicBytes ++ u32le 6 ++ (u32le 1 ++ [7, 8])
    ∧ bincodeClientCallBytes id ⟨"bar", 1⟩ [("a", [7, 8])] =
        bincodeClientCallBytes id ⟨"x", 1⟩ [("y", [7, 8])] := by
  have h := claim_c2_call_frame_bytes "bar" 1 [("a", [7, 8])]
  exact ⟨h.1, h.2 "x" [("y", [7, 8])] (by decide)⟩

/-- C3. For both codecs, if the peer closes the channel before a
complete response (client side, `rx_response`) or before a complete call
(server side, `rx_begin_call`) has been read — the channel holding only
a strict prefix of the data the operation reads — the operation fails
with an `RPCError` whose kind is `TransportEOF`, and not
`SerializationError` or any other kind; this holds wherever in the read
the EOF occurs, including while reading the binary codec's frame header
(`k < 10`) or payload bytes (`10 ≤ k`), and for the JSON codec when no
complete value is pending. -/
theorem claim_c3_eof_kinds (R : Type)
    (dec : List Nat → Except RPCError (R × List Nat))
    (fromJ : JValue → Except RPCError R)
    (payload : List Nat) (k kc L : Nat) (callRest out : List Nat)
    (jout : List JValue) :
    (payload.length < 2 ^ 32 → k < 10 + payload.length →
      failsWithKind
        (bincodeRxResponse dec
          ((((FrameHeader.new payload.length).as_bytes) ++ payload).take k))
        RPCErrorKind.TransportEOF)
    ∧ (kc < 14 →
      failsWithKind
        (bincodeRxBeginCall ⟨((magicBytes ++ u32le L) ++ callRest).take kc, out⟩).1
        RPCErrorKind.TransportEOF)
    ∧ failsWithKind (jsonRxResponse fromJ []) RPCErrorKind.TransportEOF
    ∧ failsWithKind (jsonRxBeginCall ⟨[], jout⟩).1 RPCErrorKind.TransportEOF := by
  refine ⟨?_, ?_, ?_, ?_⟩
  · intro hp hk
    rw [bincodeRxResponse_prefix_eof dec payload k hp hk]
    rfl
  · intro hk
    exact bincodeRxBeginCall_prefix_eof L callRest out kc hk
  · rfl
  · rfl

theorem claim_c3_eof_kinds_witness :
    failsWithKind (bincodeRxResponse boolBCodec.dec
        ((((FrameHeader.new ([1] : List Nat).length).as_bytes) ++ [1]).take 3))
      RPCErrorKind.TransportEOF
    ∧ failsWithKind (bincodeRxBeginCall
        ⟨((magicBytes ++ u32le 1) ++ [0, 0, 0, 0]).take 12, []⟩).1
      RPCErrorKind.TransportEOF
    ∧ failsWithKind (jsonRxResponse boolJCodec.fromJ []) RPCErrorKind.TransportEOF
    ∧ failsWithKind (jsonRxBeginCall ⟨[], []⟩).1 RPCErrorKind.TransportEOF := by
  have h := claim_c3_eof_kinds Bool boolBCodec.dec boolJCodec.fromJ [1] 3 12 1
    [0, 0, 0, 0] [] []
  exact ⟨h.1 (by decide) (by decide), h.2.1 (by decide), h.2.2.1, h.2.2.2⟩

/-- C4. For every received call whose method identifier resolves to no
declared method (a numeric index outside the declared range, or a name
not in the generated name-to-index table), the generated
`serve_single_call` returns `Err` with kind `UnknownMethod` to its own
caller, transmits nothing to the remote peer (the channel's output is
untouched, so `tx_response` was not invoked for that call), and does
not classify the situation as `SerializationError`. -/
theorem claim_c4_unknown_method (V R : Type) (bc : BCodec V) (rc : BCodec R)
    (jc : JCodec V) (jr : JCodec R)
    (methods : List (String × List String)) (impl : Nat → List V → R)
    (L m : Nat) (rest out : List Nat)
    (v : JValue) (name : String) (jrest : List JValue) (jout : List JValue)
    (hm : methods.length ≤ m) (hm32 : m < 2 ^ 32)
    (hname : name ∉ methods.map Prod.fst) (hml : methods.length < 2 ^ 32)
    (hv : v.get "method" = some (JValue.str name)) :
    (failsWithKind (serveSingleCall bincodeRxBeginCall (bincodeRxReadParamOp bc)
        (bincodeTxResponse rc.enc) methods impl
        ⟨(magicBytes ++ u32le L) ++ (u32le m ++ rest), out⟩).1
      RPCErrorKind.UnknownMethod
      ∧ (serveSingleCall bincodeRxBeginCall (bincodeRxReadParamOp bc)
          (bincodeTxResponse rc.enc) methods impl
          ⟨(magicBytes ++ u32le L) ++ (u32le m ++ rest), out⟩).2.output = out)
    ∧ (failsWithKind (serveSingleCall jsonRxBeginCall (jsonRxReadParamOp jc)
          (jsonTxResponse jr.toJ) methods impl ⟨v :: jrest, jout⟩).1
        RPCErrorKind.UnknownMethod
      ∧ (serveSingleCall jsonRxBeginCall (jsonRxReadParamOp jc)
          (jsonTxResponse jr.toJ) methods impl ⟨v :: jrest, jout⟩).2.output = jout)
    ∧ RPCErrorKind.UnknownMethod ≠ RPCErrorKind.SerializationError := by
  have hnlt : ¬ (m < methods.length) := by omega
  have hnlt2 : ¬ (u32Max < methods.length) := by
    have h32 : u32Max = 2 ^ 32 - 1 := rfl
    omega
  refine ⟨?_, ?_, by decide⟩
  · rw [serveSingleCall, bincodeRxBeginCall_spec]
    simp only [Nat.mod_eq_of_lt hm32]
    rw [if_neg hnlt]
    exact ⟨rfl, rfl⟩
  · rw [serveSingleCall, jsonRxBeginCall_method v name jrest jout hv]
    simp only [method_num_from_name_not_mem name methods hname]
    rw [if_neg hnlt2]
    exact ⟨rfl, rfl⟩

theorem claim_c4_unknown_method_witness :
    (failsWithKind (serveSingleCall bincodeRxBeginCall
        (bincodeRxReadParamOp boolBCodec) (bincodeTxResponse boolBCodec.enc)
        [("bar", ["a"])] (fun _ _ => true)
        ⟨(magicBytes ++ u32le 0) ++ (u32le 5 ++ []), []⟩).1
      RPCErrorKind.UnknownMethod
      ∧ (serveSingleCall bincodeRxBeginCall
          (bincodeRxReadParamOp boolBCodec) (bincodeTxResponse boolBCodec.enc)
          [("bar", ["a"])] (fun _ _ => true)
          ⟨(magicBytes ++ u32le 0) ++ (u32le 5 ++ []), []⟩).2.output = [])
    ∧ (failsWithKind (serveSingleCall jsonRxBeginCall
          (jsonRxReadParamOp boolJCodec) (jsonTxResponse boolJCodec.toJ)
          [("bar", ["a"])] (fun _ _ => true)
          ⟨[JValue.obj [("method", JValue.str "nope")]], []⟩).1
        RPCErrorKind.UnknownMethod
      ∧ (serveSingleCall jsonRxBeginCall
          (jsonRxReadParamOp boolJCodec) (jsonTxResponse boolJCodec.toJ)
          [("bar", ["a"])] (fun _ _ => true)
          ⟨[JValue.obj [("method", JValue.str "nope")]], []⟩).2.output = [])
    ∧ RPCErrorKind.UnknownMethod ≠ RPCErrorKind.SerializationError :=
  claim_c4_unknown_method Bool Bool boolBCodec boolBCodec boolJCodec boolJCodec
    [("bar", ["a"])] (fun _ _ => true) 0 5 [] []
    (JValue.obj [("method", JValue.str "nope")]) "nope" [] []
    (by decide) (by decide) (by decide) (by decide) (by rfl)

/-- C5 counterexample: a 10-byte header whose first 6 bytes are not
"ESSRPC" is rejected, but with kind `TransportError`, not
`SerializationError` as the claim states. -/
theorem claim_c5_counterexample :
    FrameHeader.from_bytes [0, 0, 0, 0, 0, 0, 0, 0, 0, 0] =
      Except.error (RPCError.new RPCErrorKind.TransportError "IO error in transport")
    ∧ RPCErrorKind.TransportError ≠ RPCErrorKind.SerializationError :=
  ⟨rfl, by decide⟩

/-- C5 (amended): when the binary codec reads a 10-byte frame header
whose first 6 bytes are not exactly "ESSRPC", the frame is rejected with
an error — but that rejection carries kind `TransportError` (message
"IO error in transport"), not `SerializationError`; within the bincode
`deserialize` wrapper itself, only an IO `UnexpectedEof` maps to
`TransportEOF` and every other decode failure maps to
`SerializationError`. -/
theorem claim_c5_amended (bytes : List Nat) (h : bytes.take 6 ≠ magicBytes) :
    FrameHeader.from_bytes bytes =
      Except.error (RPCError.new RPCErrorKind.TransportError "IO error in transport")
    ∧ (RPCError.new RPCErrorKind.TransportError "IO error in transport").kind ≠
        RPCErrorKind.SerializationError
    ∧ (bincodeMapDeserializeError BincodeFailure.ioUnexpectedEof).kind =
        RPCErrorKind.TransportEOF
    ∧ ∀ (f : BincodeFailure), f ≠ BincodeFailure.ioUnexpectedEof →
        (bincodeMapDeserializeError f).kind = RPCErrorKind.SerializationError := by
  refine ⟨?_, by decide, rfl, ?_⟩
  · rw [FrameHeader.from_bytes, if_pos h]
  · intro f hf
    cases f with
    | ioUnexpectedEof => exact absurd rfl hf
    | ioOther msg => rfl
    | decodeFailure msg => rfl

theorem claim_c5_amended_witness :
    FrameHeader.from_bytes [1, 2, 3, 4, 5, 6, 7, 8, 9, 10] =
      Except.error (RPCError.new RPCErrorKind.TransportError "IO error in transport")
    ∧ (RPCError.new RPCErrorKind.TransportError "IO error in transport").kind ≠
        RPCErrorKind.SerializationError
    ∧ (bincodeMapDeserializeError BincodeFailure.ioUnexpectedEof).kind =
        RPCErrorKind.TransportEOF
    ∧ (bincodeMapDeserializeError (BincodeFailure.ioOther "disk fault")).kind =
        RPCErrorKind.SerializationError := by
  have h := claim_c5_amended [1, 2, 3, 4, 5, 6, 7, 8, 9, 10] (by decide)
  exact ⟨h.1, h.2.1, h.2.2.1, h.2.2.2 _ (by decide)⟩

/-- C6 counterexample: at `len = 2 ^ 32`, the `len as u32` cast in
`FrameHeader::new` truncates, so decoding the header produced for it
recovers 0, not the original length — the round trip is not lossless
for arbitrary `usize` payload sizes. -/
theorem claim_c6_counterexample :
    FrameHeader.from_bytes ((FrameHeader.new (2 ^ 32)).as_bytes) = Except.ok ⟨0⟩
    ∧ FrameHeader.len ⟨0⟩ ≠ 2 ^ 32 :=
  ⟨rfl, by decide⟩

/-- C6 (amended): framing is lossless for every payload length below
`2 ^ 32` (the capacity of the 4-byte length field): decoding the header
produced for `len` recovers exactly `len`, and wrapping a payload in a
frame and reading the frame back reproduces the exact original bytes.
For `len ≥ 2 ^ 32` the `len as u32` cast truncates and the round trip
fails (see the counterexample). -/
theorem claim_c6_amended (len : Nat) (payload : List Nat)
    (hlen : len < 2 ^ 32) (hp : payload.length < 2 ^ 32) :
    (FrameHeader.from_bytes ((FrameHeader.new len).as_bytes) = Except.ok ⟨len⟩
      ∧ FrameHeader.len ⟨len⟩ = len)
    ∧ FrameHeader.from_bytes
        (((FrameHeader.new payload.length).as_bytes ++ payload).take 10) =
      Except.ok ⟨payload.length⟩
    ∧ (((FrameHeader.new payload.length).as_bytes ++ payload).drop 10).take
        (FrameHeader.len ⟨payload.length⟩) = payload := by
  have hnew : FrameHeader.new len = ⟨len⟩ := by
    rw [FrameHeader.new, Nat.mod_eq_of_lt hlen]
  have hnewp : FrameHeader.new payload.length = ⟨payload.length⟩ := by
    rw [FrameHeader.new, Nat.mod_eq_of_lt hp]
  have h10 : (FrameHeader.as_bytes ⟨payload.length⟩).length = 10 := as_bytes_length _
  refine ⟨⟨?_, rfl⟩, ?_, ?_⟩
  · rw [hnew, from_bytes_as_bytes, Nat.mod_eq_of_lt hlen]
  · rw [hnewp, List.take_left' h10, from_bytes_as_bytes, Nat.mod_eq_of_lt hp]
  · rw [hnewp, List.drop_left' h10, FrameHeader.len, List.take_length]

theorem claim_c6_amended_witness :
    (FrameHeader.from_bytes ((FrameHeader.new 262144).as_bytes) = Except.ok ⟨262144⟩
      ∧ FrameHeader.len ⟨262144⟩ = 262144)
    ∧ FrameHeader.from_bytes
        (((FrameHeader.new ([9, 9] : List Nat).length).as_bytes ++ [9, 9]).take 10) =
      Except.ok ⟨([9, 9] : List Nat).length⟩
    ∧ (((FrameHeader.new ([9, 9] : List Nat).length).as_bytes ++ [9, 9]).drop 10).take
        (FrameHeader.len ⟨([9, 9] : List Nat).length⟩) = [9, 9] :=
  claim_c6_amended 262144 [9, 9] (by decide) (by decide)

/-- C7. For every received textual-codec request and every declared
parameter name, `JSONTransport::rx_read_param` returns the value stored
under that name in the request's `params` object — the same result
regardless of the order of fields in `params` or the presence of
additional, undeclared fields (the result depends only on the lookup,
and with unique keys it is invariant under any permutation of the
fields) — and if `params` contains no field of that name, it fails with
an error of kind `SerializationError` whose message names the missing
parameter. -/
theorem claim_c7_param_by_name (V : Type) (dec : JValue → Except RPCError V)
    (req : JValue) (fields : List (String × JValue)) (name : String)
    (hreq : req.get "params" = some (JValue.obj fields)) :
    (∀ v, lookupField fields name = some v →
      jsonRxReadParam dec name req = dec v)
    ∧ (∀ (req' : JValue) (fields' : List (String × JValue)),
        req'.get "params" = some (JValue.obj fields') →
        lookupField fields' name = lookupField fields name →
        jsonRxReadParam dec name req' = jsonRxReadParam dec name req)
    ∧ ((fields.map Prod.fst).Nodup →
        ∀ (fields' : List (String × JValue)), fields.Perm fields' →
        ∀ (req' : JValue), req'.get "params" = some (JValue.obj fields') →
        jsonRxReadParam dec name req' = jsonRxReadParam dec name req)
    ∧ (lookupField fields name = none →
        jsonRxReadParam dec name req =
          Except.error (RPCError.new RPCErrorKind.SerializationError
            ("parameters do not contain " ++ name))) := by
  refine ⟨?_, ?_, ?_, ?_⟩
  · intro v hv
    rw [jsonRxReadParam, hreq]
    simp only [JValue.get, hv]
  · intro req' fields' hreq' hlk
    rw [jsonRxReadParam, jsonRxReadParam, hreq, hreq']
    simp only [JValue.get, hlk]
  · intro hnd fields' hperm req' hreq'
    have hlk : lookupField fields' name = lookupField fields name :=
      (lookupField_perm fields fields' hperm hnd name).symm
    rw [jsonRxReadParam, jsonRxReadParam, hreq, hreq']
    simp only [JValue.get, hlk]
  · intro hnone
    rw [jsonRxReadParam, hreq]
    simp only [JValue.get, hnone]

theorem claim_c7_param_by_name_witness :
    jsonRxReadParam boolJCodec.fromJ "a"
        (JValue.obj [("params",
          JValue.obj [("a", JValue.bool true), ("extra", JValue.num 3)])]) =
      boolJCodec.fromJ (JValue.bool true)
    ∧ jsonRxReadParam boolJCodec.fromJ "a"
        (JValue.obj [("params",
          JValue.obj [("extra", JValue.num 3), ("a", JValue.bool true)])]) =
      jsonRxReadParam boolJCodec.fromJ "a"
        (JValue.obj [("params",
          JValue.obj [("a", JValue.bool true), ("extra", JValue.num 3)])])
    ∧ jsonRxReadParam boolJCodec.fromJ "b"
        (JValue.obj [("params", JValue.obj [("a", JValue.bool true)])]) =
      Except.error (RPCError.new RPCErrorKind.SerializationError
        ("parameters do not contain " ++ "b")) := by
  have h1 := claim_c7_param_by_name Bool boolJCodec.fromJ
    (JValue.obj [("params",
      JValue.obj [("a", JValue.bool true), ("extra", JValue.num 3)])])
    [("a", JValue.bool true), ("extra", JValue.num 3)] "a" (by rfl)
  have h2 := claim_c7_param_by_name Bool boolJCodec.fromJ
    (JValue.obj [("params", JValue.obj [("a", JValue.bool true)])])
    [("a", JValue.bool true)] "b" (by rfl)
  refine ⟨h1.1 (JValue.bool true) (by rfl), ?_, h2.2.2.2 (by rfl)⟩
  exact h1.2.1 _ [("extra", JValue.num 3), ("a", JValue.bool true)] (by rfl) (by rfl)

/-- C8. The serve-loop variants behave as follows: `serve_until(cond)`
serves a first call and then evaluates `cond` only between calls (the
final states count one `serve_single_call` and one `cond` evaluation
per loop iteration), returning `Ok(())` the first time `cond` yields
false and otherwise propagating the first error returned by a served
call (`cond` having been evaluated only for the calls before it); and
`serve` repeats `serve_single_call` indefinitely and can only return by
propagating an error — it never returns `Ok` for any sequence of served
calls. -/
theorem claim_c8_serve_loops (outv : Nat → Except RPCError Unit)
    (condv : Nat → Bool) (k fuel : Nat) (e : RPCError) :
    ((∀ j, j ≤ k → outv j = Except.ok ()) → (∀ j, j < k → condv j = true) →
      condv k = false → k < fuel →
      serveUntilFuel (stepOfSeq outv) (condOfSeq condv) fuel 0 0 =
        some (Except.ok (), k + 1, k + 1))
    ∧ ((∀ j, j < k → outv j = Except.ok ()) → (∀ j, j < k → condv j = true) →
      outv k = Except.error e → k < fuel →
      serveUntilFuel (stepOfSeq outv) (condOfSeq condv) fuel 0 0 =
        some (Except.error e, k + 1, k))
    ∧ (∀ (f s s' : Nat), serveFuel (stepOfSeq outv) f s ≠ some (Except.ok (), s'))
    ∧ ((∀ j, j < k → outv j = Except.ok ()) → outv k = Except.error e → k < fuel →
      serveFuel (stepOfSeq outv) fuel 0 = some (Except.error e, k + 1)) := by
  refine ⟨?_, ?_, serveFuel_never_ok outv, ?_⟩
  · intro h1 h2 h3 h4
    have := serveUntilFuel_ok outv condv k fuel 0 0
      (fun j hj => by simpa using h1 j hj) (fun j hj => by simpa using h2 j hj)
      (by simpa using h3) h4
    simpa using this
  · intro h1 h2 h3 h4
    have := serveUntilFuel_err outv condv e k fuel 0 0
      (fun j hj => by simpa using h1 j hj) (fun j hj => by simpa using h2 j hj)
      (by simpa using h3) h4
    simpa using this
  · intro h1 h2 h3
    have := serveFuel_first_err outv e k fuel 0
      (fun j hj => by simpa using h1 j hj) (by simpa using h2) h3
    simpa using this

theorem claim_c8_serve_loops_witness :
    serveUntilFuel (stepOfSeq fun _ => Except.ok ())
        (condOfSeq fun j => decide (j < 2)) 10 0 0 =
      some (Except.ok (), 3, 3)
    ∧ serveUntilFuel
        (stepOfSeq fun j =>
          if j = 1 then Except.error (RPCError.new RPCErrorKind.TransportEOF "eof")
          else Except.ok ())
        (condOfSeq fun _ => true) 10 0 0 =
      some (Except.error (RPCError.new RPCErrorKind.TransportEOF "eof"), 2, 1)
    ∧ serveFuel
        (stepOfSeq fun j =>
          if j = 1 then Except.error (RPCError.new RPCErrorKind.TransportEOF "eof")
          else Except.ok ()) 5 0 ≠ some (Except.ok (), 9)
    ∧ serveFuel
        (stepOfSeq fun j =>
          if j = 1 then Except.error (RPCError.new RPCErrorKind.TransportEOF "eof")
          else Except.ok ()) 10 0 =
      some (Except.error (RPCError.new RPCErrorKind.TransportEOF "eof"), 2) := by
  have hA := claim_c8_serve_loops (fun _ => Except.ok ())
    (fun j => decide (j < 2)) 2 10 (RPCError.new RPCErrorKind.TransportEOF "eof")
  have hB := claim_c8_serve_loops
    (fun j => if j = 1 then Except.error (RPCError.new RPCErrorKind.TransportEOF "eof")
      else Except.ok ())
    (fun _ => true) 1 10 (RPCError.new RPCErrorKind.TransportEOF "eof")
  refine ⟨?_, ?_, hB.2.2.1 5 0 9, ?_⟩
  · exact hA.1 (fun j _ => rfl) (by intro j hj; interval_cases j <;> rfl)
      (by rfl) (by omega)
  · exact hB.2.1 (by intro j hj; interval_cases j <;> rfl)
      (fun j hj => rfl) (by rfl) (by omega)
  · exact hB.2.2.2 (by intro j hj; interval_cases j <;> rfl) (by rfl) (by omega)

/-- C9. On the server side the binary codec never uses the declared
length of a received call frame: the generated single-call service is
identical for any two length fields over the same remaining bytes (the
mismatch is never detected); `rx_begin_call` consumes exactly the
10-byte header and the method index, its result determined solely by
the decoded index; and each `rx_read_param` consumes exactly the
parameter's encoding, determined solely by the decoded value. -/
theorem claim_c9_server_ignores_length (V R : Type) (bc : BCodec V) (rc : BCodec R)
    (methods : List (String × List String)) (impl : Nat → List V → R)
    (L L' m : Nat) (p rest out : List Nat) (v : V) (nm : String) :
    serveSingleCall bincodeRxBeginCall (bincodeRxReadParamOp bc)
        (bincodeTxResponse rc.enc) methods impl ⟨(magicBytes ++ u32le L) ++ p, out⟩ =
      serveSingleCall bincodeRxBeginCall (bincodeRxReadParamOp bc)
        (bincodeTxResponse rc.enc) methods impl ⟨(magicBytes ++ u32le L') ++ p, out⟩
    ∧ (m < 2 ^ 32 →
      bincodeRxBeginCall ⟨(magicBytes ++ u32le L) ++ (u32le m ++ rest), out⟩ =
        (Except.ok (PartialMethodId.Num m, ()), ⟨rest, out⟩))
    ∧ bincodeRxReadParamOp bc nm () ⟨bc.enc v ++ rest, out⟩ =
        (Except.ok v, (), ⟨rest, out⟩) := by
  refine ⟨?_, ?_, ?_⟩
  · rw [serveSingleCall, serveSingleCall, bincodeRxBeginCall_ignores_len,
      bincodeRxBeginCall_ignores_len]
  · intro hm
    rw [bincodeRxBeginCall_spec, Nat.mod_eq_of_lt hm]
  · rw [bincodeRxReadParamOp]
    simp only [bc.dec_enc]

theorem claim_c9_server_ignores_length_witness :
    serveSingleCall bincodeRxBeginCall (bincodeRxReadParamOp boolBCodec)
        (bincodeTxResponse boolBCodec.enc) [("bar", ["a"])] (fun _ _ => true)
        ⟨(magicBytes ++ u32le 0) ++ (u32le 0 ++ [1]), []⟩ =
      serveSingleCall bincodeRxBeginCall (bincodeRxReadParamOp boolBCodec)
        (bincodeTxResponse boolBCodec.enc) [("bar", ["a"])] (fun _ _ => true)
        ⟨(magicBytes ++ u32le 77) ++ (u32le 0 ++ [1]), []⟩
    ∧ bincodeRxBeginCall ⟨(magicBytes ++ u32le 0) ++ (u32le 3 ++ [5]), []⟩ =
        (Except.ok (PartialMethodId.Num 3, ()), ⟨[5], []⟩)
    ∧ bincodeRxReadParamOp boolBCodec "a" () ⟨boolBCodec.enc true ++ [5], []⟩ =
        (Except.ok true, (), ⟨[5], []⟩) := by
  have h := claim_c9_server_ignores_length Bool Bool boolBCodec boolBCodec
    [("bar", ["a"])] (fun _ _ => true) 0 77 3 (u32le 0 ++ [1]) [5] [] true "a"
  exact ⟨h.1, h.2.1 (by decide), h.2.2⟩

/-- C10. For every received textual-codec request,
`JSONTransport::rx_read_param` performs no channel I/O and leaves the
reception state (the stored JSON value) unchanged: the reception state
and the channel come back identical, reading the same parameter name
repeatedly yields the same value each time, the value obtained for any
name is unaffected by reads performed before it, and a whole sequence
of reads is the pure per-name lookup sequence over an unchanged state
and channel. -/
theorem claim_c10_json_read_param_pure (V : Type) (jc : JCodec V)
    (name : String) (rx : JValue) (ch : JChan) :
    (jsonRxReadParamOp jc name rx ch).2.1 = rx
    ∧ (jsonRxReadParamOp jc name rx ch).2.2 = ch
    ∧ (jsonRxReadParamOp jc name
        (jsonRxReadParamOp jc name rx ch).2.1
        (jsonRxReadParamOp jc name rx ch).2.2).1 =
      (jsonRxReadParamOp jc name rx ch).1
    ∧ (∀ (n' : String),
        (jsonRxReadParamOp jc n'
          (jsonRxReadParamOp jc name rx ch).2.1
          (jsonRxReadParamOp jc name rx ch).2.2).1 =
        (jsonRxReadParamOp jc n' rx ch).1)
    ∧ (∀ (names : List String),
        readParams (jsonRxReadParamOp jc) names rx ch =
          (jsonReadParamsPure (fun n => jsonRxReadParam jc.fromJ n rx) names,
            rx, ch)) :=
  ⟨rfl, rfl, rfl, fun _ => rfl, fun names => json_readParams_pure jc names rx ch⟩

end Essrpc
